import Mathlib

/-!
Verification development for the `sluice` in-process byte-pipe library.

The Rust sources are embedded shallowly:

* `src/arrays.rs` — slice copy helpers and the power-of-two `CircularArray`
  with virtual (masked) indexing.  A circular array is modelled as a plain
  `List Nat` of power-of-two length; the mask is `length - 1`.
* `src/buffers/atomic.rs` — the SPSC atomic ring buffer.  Its shared state
  (`Inner`) is a `RingState`: the circular array plus the two `usize`
  cursors `head` and `tail`.  `usize` arithmetic is `Nat` arithmetic
  modulo `2 ^ 64`; the in-place mutation of the two mutable slices handed
  out by `as_slices_mut` is modelled by reassembling the array from the
  updated segments.
* `src/internal/sync.rs` — the `Signal` wake primitive.  Only its sticky
  `notified` flag and the `waiting` counter are state; blocking on the
  condition variable is modelled by `Option`: `none` means the call parks
  the thread (its outcome then depends on a future concurrent notify,
  which a sequential model does not resolve).
* `src/io.rs` — the blocking pipe built from the ring buffer, two
  `Signal`s and a shared `drop_flag`.
* `src/pipe/chunked.rs` — the chunked cooperative pipe: a pool channel and
  a stream channel exchanging `Cursor<Vec<u8>>` chunks, modelled as FIFO
  lists of `Chunk`s plus the reader-held chunk.
-/

namespace Sluice

/-- The modulus of `usize` arithmetic on the 64-bit targets the crate runs on. -/
def usizeMod : Nat := 2 ^ 64

/-- Rust `a.wrapping_sub(b)` on `usize` values (`a, b < usizeMod`). -/
def wrappingSub (a b : Nat) : Nat := (a + (usizeMod - b)) % usizeMod

/-- Rust `a.wrapping_add(b)` on `usize`, as performed by `fetch_add`. -/
def wrappingAdd (a b : Nat) : Nat := (a + b) % usizeMod

/-! ## `src/arrays.rs` -/

/-- `arrays::copy`: copy as many elements as possible from `src` into the
front of `dest`; the returned list is the new contents of `dest`.
The number of elements copied is `min src.length dest.length`. -/
def copy (src dest : List Nat) : List Nat :=
  let len := min src.length dest.length
  src.take len ++ dest.drop len

/-- `arrays::copy_seq`: copy from an ordered sequence of source slices into
one destination until the destination is full or the sources are exhausted.
The destination is represented only by its length; the returned list is the
sequence of elements written into its front (its length is the copied count). -/
def copy_seq : List (List Nat) → Nat → List Nat
  | [], _ => []
  | s :: rest, destLen =>
    let c := s.take destLen
    c ++ copy_seq rest (destLen - c.length)

/-- Modelled from the spec: `arrays::copy_from_seq` is called by
`src/buffers/atomic.rs` but absent from `src/arrays.rs`; per spec §4.2 it
"copies from an ordered sequence of source slices into one destination until
the destination is full or sources are exhausted; returns total copied" —
exactly the behaviour of the `copy_seq` that is present in the source. -/
def copy_from_seq (seq : List (List Nat)) (destLen : Nat) : List Nat :=
  copy_seq seq destLen

/-- Modelled from the spec: `arrays::copy_to_seq` is called by
`src/buffers/atomic.rs` but absent from `src/arrays.rs`; per spec §4.2 it is
the symmetric scatter — "fills an ordered sequence of destination slices from
one source".  It returns the total count copied together with the updated
destination slices. -/
def copy_to_seq (src : List Nat) : List (List Nat) → Nat × List (List Nat)
  | [] => (0, [])
  | d :: ds =>
    let n := min src.length d.length
    let d' := src.take n ++ d.drop n
    let r := copy_to_seq (src.drop n) ds
    (n + r.1, d' :: r.2)

/-- `CircularArray::internal_index`: map a virtual index to a physical one by
masking with `mask = len - 1` (`len` is always a power of two). -/
def internal_index (cap i : Nat) : Nat := i &&& (cap - 1)

/-- `CircularArray::as_slices`: the 1–2 contiguous physical regions covering
the virtual half-open range `[start, stop)`.  If the masked start is below
the masked end the window is contiguous (`arr[s..e]` plus an empty slice);
otherwise it wraps: tail segment `arr[s..]` first, then head segment
`arr[..e]`. -/
def as_slices (arr : List Nat) (start stop : Nat) : List (List Nat) :=
  let s := internal_index arr.length start
  let e := internal_index arr.length stop
  if s < e then
    [(arr.take e).drop s, []]
  else
    [arr.drop s, arr.take e]

/-- `CircularArray::as_slices_mut` hands out the same two regions as
`as_slices`, mutably. -/
def as_slices_mut (arr : List Nat) (start stop : Nat) : List (List Nat) :=
  as_slices arr start stop

/-- Reassemble the array after the two mutable segments handed out by
`as_slices_mut arr start stop` have been overwritten (the segments keep
their lengths; this is the functional image of Rust's in-place writes). -/
def write_back (arr : List Nat) (start stop : Nat) (segs : List (List Nat)) : List Nat :=
  let s := internal_index arr.length start
  let e := internal_index arr.length stop
  if s < e then
    arr.take s ++ segs.getD 0 [] ++ arr.drop e
  else
    segs.getD 1 [] ++ (arr.take s).drop e ++ segs.getD 0 []

/-! ## `src/buffers/atomic.rs` -/

/-- The shared state (`Inner<u8>`) of the atomic SPSC ring buffer: the
circular array and the two monotonically wrapping `usize` cursors. -/
structure RingState where
  arr : List Nat
  head : Nat
  tail : Nat
  deriving Repr, DecidableEq

/-- `Inner::capacity` = `CircularArray::len`: the physical array length. -/
def RingState.capacity (S : RingState) : Nat := S.arr.length

/-- `Inner::len`: `tail.wrapping_sub(head)` — the live element count, correct
across cursor wraparound. -/
def RingState.len (S : RingState) : Nat := wrappingSub S.tail S.head

/-- `Reader::copy_to`: gather the live window `[head, tail)` into a
destination of length `destLen` without consuming; returns the elements
copied (the count is the returned list's length).  Empty buffer
(`head == tail`) short-circuits to nothing. -/
def RingState.copy_to (S : RingState) (destLen : Nat) : List Nat :=
  if S.head = S.tail then []
  else copy_from_seq (as_slices S.arr S.head S.tail) destLen

/-- `Reader::consume`: advance `head` by `min count len` with a wrapping
`fetch_add`; returns the count consumed and the new state. -/
def RingState.consume (S : RingState) (count : Nat) : Nat × RingState :=
  let c := min count S.len
  (c, { S with head := wrappingAdd S.head c })

/-- `ReadableBuffer::pull` (default method): `copy_to` then `consume` the
number of elements copied; returns the bytes pulled and the new state. -/
def RingState.pull (S : RingState) (destLen : Nat) : List Nat × RingState :=
  let bytes := S.copy_to destLen
  (bytes, (S.consume bytes.length).2)

/-- `Writer::push`: if the buffer is full (`tail - head == capacity`) write
nothing and return 0; otherwise scatter `src` into the free window
`[tail, head)` via `as_slices_mut`/`copy_to_seq` and publish with a wrapping
`fetch_add` on `tail`. -/
def RingState.push (S : RingState) (src : List Nat) : Nat × RingState :=
  if wrappingSub S.tail S.head = S.capacity then (0, S)
  else
    let slices := as_slices_mut S.arr S.tail S.head
    let r := copy_to_seq src slices
    let arr' := write_back S.arr S.tail S.head r.2
    (r.1, { arr := arr', head := S.head, tail := wrappingAdd S.tail r.1 })

/-- `Buffer::clear` as implemented on the `Reader` handle: store `tail`
into `head`. -/
def RingState.readerClear (S : RingState) : RingState :=
  { S with head := S.tail }

/-- `Buffer::clear` as implemented on the `Writer` handle: the identical
body — it also stores `tail` into `head`. -/
def RingState.writerClear (S : RingState) : RingState :=
  { S with head := S.tail }

/-- `bounded(capacity)` produces a fresh shared state: both cursors zero and
an uninitialized array whose length is `capacity.next_power_of_two()`; the
unspecified initial contents are an arbitrary `arr0` of that length. -/
def RingState.init (arr0 : List Nat) : RingState :=
  { arr := arr0, head := 0, tail := 0 }

/-- States of the ring buffer reachable through its public operations from a
freshly constructed buffer of capacity `2 ^ k`. -/
inductive Reach (k : Nat) : RingState → Prop
  | init (arr0 : List Nat) (h : arr0.length = 2 ^ k) : Reach k (RingState.init arr0)
  | push (S : RingState) (src : List Nat) : Reach k S → Reach k (S.push src).2
  | consume (S : RingState) (n : Nat) : Reach k S → Reach k (S.consume n).2
  | readerClear (S : RingState) : Reach k S → Reach k S.readerClear
  | writerClear (S : RingState) : Reach k S → Reach k S.writerClear

/-- The live window of the ring buffer read through virtual indexing:
element `i` of the abstraction sits at physical slot `(head + i) % capacity`. -/
def window (arr : List Nat) (start len : Nat) : List Nat :=
  (List.range len).map (fun i => arr.getD ((start + i) % arr.length) 0)

/-- Abstraction of a ring-buffer state to the queue of live bytes. -/
def RingState.abs (S : RingState) : List Nat :=
  window S.arr S.head S.len

/-! ## Facts about the copy helpers -/

/-- The gather `copy_seq` copies exactly the first `destLen` elements of the
concatenated sources. -/
theorem copy_seq_eq_flatten_take (seq : List (List Nat)) (destLen : Nat) :
    copy_seq seq destLen = seq.flatten.take destLen := by
  induction seq generalizing destLen with
  | nil => simp [copy_seq]
  | cons s rest ih =>
    simp only [copy_seq, List.flatten_cons, List.take_append_eq_append_take, ih]
    congr 2
    simp only [List.length_take]
    omega

/-- The scatter `copy_to_seq` copies `min (src length) (total dest length)`
elements. -/
theorem copy_to_seq_fst (src : List Nat) (ds : List (List Nat)) :
    (copy_to_seq src ds).1 = min src.length (ds.map List.length).sum := by
  induction ds generalizing src with
  | nil => simp [copy_to_seq]
  | cons d ds ih =>
    simp only [copy_to_seq, ih, List.map_cons, List.sum_cons, List.length_drop]
    omega

/-- The scatter `copy_to_seq` preserves the length of every destination
slice. -/
theorem copy_to_seq_lengths (src : List Nat) (ds : List (List Nat)) :
    (copy_to_seq src ds).2.map List.length = ds.map List.length := by
  induction ds generalizing src with
  | nil => simp [copy_to_seq]
  | cons d ds ih =>
    simp only [copy_to_seq, List.map_cons, ih, List.cons.injEq, and_true]
    simp only [List.length_append, List.length_take, List.length_drop]
    omega

/-! ## `usize` wrapping arithmetic -/

theorem usizeMod_eq : usizeMod = 18446744073709551616 := by norm_num [usizeMod]

theorem usizeMod_pos : 0 < usizeMod := by rw [usizeMod_eq]; omega

theorem wrappingSub_lt (a b : Nat) : wrappingSub a b < usizeMod :=
  Nat.mod_lt _ usizeMod_pos

theorem wrappingAdd_lt (a b : Nat) : wrappingAdd a b < usizeMod :=
  Nat.mod_lt _ usizeMod_pos

theorem two_pow_dvd_usizeMod {k : Nat} (hk : k ≤ 64) : 2 ^ k ∣ usizeMod :=
  pow_dvd_pow 2 hk

/-- `wrapping_sub` inverts `wrapping_add` of the cursor: adding the live
count back to `head` recovers `tail` modulo any divisor of `2 ^ 64`. -/
theorem add_wrappingSub_mod (cap a b : Nat) (hcap : cap ∣ usizeMod)
    (ha : a < usizeMod) : (a + wrappingSub b a) % cap = b % cap := by
  unfold wrappingSub
  calc (a + (b + (usizeMod - a)) % usizeMod) % cap
      = (a % cap + (b + (usizeMod - a)) % usizeMod % cap) % cap := by
        rw [Nat.add_mod]
    _ = (a % cap + (b + (usizeMod - a)) % cap) % cap := by
        rw [Nat.mod_mod_of_dvd _ hcap]
    _ = (a + (b + (usizeMod - a))) % cap := by rw [← Nat.add_mod]
    _ = (b + usizeMod) % cap := by
        congr 1
        omega
    _ = b % cap := by
        obtain ⟨c, hc⟩ := hcap
        rw [hc, Nat.add_mul_mod_self_left]

theorem wrappingAdd_mod (cap a c : Nat) (hcap : cap ∣ usizeMod) :
    wrappingAdd a c % cap = (a + c) % cap :=
  Nat.mod_mod_of_dvd _ hcap

theorem wrappingSub_self (a : Nat) (ha : a < usizeMod) : wrappingSub a a = 0 := by
  rw [wrappingSub, usizeMod_eq] at *
  omega

theorem wrappingSub_eq_zero_iff (a b : Nat) (ha : a < usizeMod)
    (hb : b < usizeMod) : wrappingSub b a = 0 ↔ a = b := by
  rw [wrappingSub, usizeMod_eq] at *
  omega

/-- Consuming `c ≤ len` elements leaves `len - c` live elements. -/
theorem wrappingSub_wrappingAdd_right (a b c : Nat) (ha : a < usizeMod)
    (hc : c ≤ wrappingSub b a) :
    wrappingSub b (wrappingAdd a c) = wrappingSub b a - c := by
  rw [wrappingSub, wrappingAdd, wrappingSub, usizeMod_eq] at *
  omega

/-- Pushing `p` elements grows the live count to `len + p` (no overflow while
it stays below `2 ^ 64`). -/
theorem wrappingSub_wrappingAdd_left (a b p : Nat) (ha : a < usizeMod)
    (h : wrappingSub b a + p < usizeMod) :
    wrappingSub (wrappingAdd b p) a = wrappingSub b a + p := by
  rw [wrappingSub, wrappingAdd, wrappingSub, usizeMod_eq] at *
  omega

/-- Masking with `2 ^ k - 1` is reduction modulo `2 ^ k`. -/
theorem internal_index_eq_mod (k i : Nat) :
    internal_index (2 ^ k) i = i % 2 ^ k := by
  simp [internal_index, Nat.and_pow_two_sub_one_eq_mod]

/-- Splits a reduction `(a + L) % cap` with both arguments below `cap` into
its two linear outcomes. -/
theorem add_mod_cases (a L cap : Nat) (hcap : 0 < cap) (ha : a < cap)
    (hL : L ≤ cap) :
    (a + L) % cap = a + L ∧ a + L < cap ∨
      (a + L) % cap = a + L - cap ∧ cap ≤ a + L := by
  rcases Nat.lt_or_ge (a + L) cap with hlt | hge
  · exact Or.inl ⟨Nat.mod_eq_of_lt hlt, hlt⟩
  · refine Or.inr ⟨?_, hge⟩
    rw [Nat.mod_eq_sub_mod hge, Nat.mod_eq_of_lt (by omega)]

/-! ## `getD` helpers -/

theorem getD_append_right (l m : List Nat) (i d : Nat) (h : l.length ≤ i) :
    (l ++ m).getD i d = m.getD (i - l.length) d := by
  simp [List.getD_eq_getElem?_getD, List.getElem?_append_right h]

theorem getD_drop (l : List Nat) (i j d : Nat) :
    (l.drop i).getD j d = l.getD (i + j) d := by
  simp [List.getD_eq_getElem?_getD, List.getElem?_drop]

theorem getD_take_of_lt (l : List Nat) (i j d : Nat) (h : j < i) :
    (l.take i).getD j d = l.getD j d := by
  simp [List.getD_eq_getElem?_getD, List.getElem?_take_of_lt h]

/-! ## Window lemmas -/

theorem window_length (arr : List Nat) (s L : Nat) :
    (window arr s L).length = L := by
  simp [window]

theorem window_zero (arr : List Nat) (s : Nat) : window arr s 0 = [] := by
  simp [window]

theorem window_getElem (arr : List Nat) (s L i : Nat) (h : i < L)
    (hb : i < (window arr s L).length) :
    (window arr s L)[i] = arr.getD ((s + i) % arr.length) 0 := by
  simp [window]

/-- A window splits at any interior point. -/
theorem window_add (arr : List Nat) (s L1 L2 : Nat) :
    window arr s (L1 + L2) = window arr s L1 ++ window arr (s + L1) L2 := by
  simp only [window, List.range_add, List.map_append, List.map_map]
  congr 1
  apply List.map_congr_left
  intro i _
  simp [Function.comp, Nat.add_assoc]

/-- The window start is only read modulo the array length, so it may be
pre-reduced modulo any multiple of it. -/
theorem window_mod_start (arr : List Nat) (s L m : Nat)
    (h : arr.length ∣ m) : window arr (s % m) L = window arr s L := by
  unfold window
  apply List.map_congr_left
  intro i _
  congr 1
  rw [Nat.add_mod, Nat.mod_mod_of_dvd _ h, ← Nat.add_mod]

theorem window_drop (arr : List Nat) (s L c : Nat) :
    (window arr s L).drop c = window arr (s + c) (L - c) := by
  rcases Nat.le_total c L with h | h
  · have : L = c + (L - c) := by omega
    rw [this, window_add, List.drop_append_eq_append_drop]
    simp [window_length, Nat.sub_self, window_zero]
  · have h1 : L - c = 0 := by omega
    rw [h1, window_zero]
    exact List.drop_eq_nil_of_le (by simp [window_length]; omega)

theorem window_take (arr : List Nat) (s L c : Nat) :
    (window arr s L).take c = window arr s (min c L) := by
  rcases Nat.le_total c L with h | h
  · have : L = c + (L - c) := by omega
    rw [this, window_add, List.take_append_eq_append_take]
    simp [window_length]
  · rw [List.take_of_length_le (by simp [window_length]; omega)]
    congr 1
    omega

theorem window_getD (arr : List Nat) (s L i : Nat) (h : i < L) :
    (window arr s L).getD i 0 = arr.getD ((s + i) % arr.length) 0 := by
  rw [List.getD_eq_getElem _ 0 (by rw [window_length]; exact h)]
  exact window_getElem arr s L i h (by rw [window_length]; exact h)

/-! ## The wrap-aware slice decomposition -/

/-- For a non-empty window of at most `capacity` virtual positions, the two
slices returned by `as_slices` concatenate to exactly the live window
`[start, start + L)` read through virtual indexing, with the tail segment
first when the window wraps. -/
theorem flatten_as_slices (k : Nat) (arr : List Nat) (h t L : Nat)
    (hlen : arr.length = 2 ^ k) (hL0 : 0 < L) (hLcap : L ≤ 2 ^ k)
    (ht : t % 2 ^ k = (h + L) % 2 ^ k) :
    (as_slices arr h t).flatten = window arr h L := by
  have hcap0 : 0 < 2 ^ k := Nat.two_pow_pos k
  have ha : h % 2 ^ k < 2 ^ k := Nat.mod_lt _ hcap0
  have hb : t % 2 ^ k < 2 ^ k := Nat.mod_lt _ hcap0
  have hrel : t % 2 ^ k = (h % 2 ^ k + L) % 2 ^ k := by
    rw [ht, Nat.mod_add_mod]
  have hcases := add_mod_cases (h % 2 ^ k) L (2 ^ k) hcap0 ha hLcap
  simp only [as_slices, hlen, internal_index_eq_mod]
  by_cases hab : h % 2 ^ k < t % 2 ^ k
  · -- contiguous window: one slice `arr[s..e]`, one empty slice
    rw [if_pos hab]
    have hL : L = t % 2 ^ k - h % 2 ^ k := by omega
    simp only [List.flatten_cons, List.flatten_nil, List.append_nil]
    apply List.ext_getElem
    · simp only [List.length_drop, List.length_take, window_length]
      omega
    · intro i h1 h2
      have hiL : i < L := by simpa [window_length] using h2
      have e1 : ((arr.take (t % 2 ^ k)).drop (h % 2 ^ k))[i] =
          arr.getD (h % 2 ^ k + i) 0 := by
        rw [List.getElem_drop, List.getElem_take]
        exact (List.getD_eq_getElem _ _ _).symm
      have hidx : (h + i) % 2 ^ k = h % 2 ^ k + i := by
        rw [← Nat.mod_add_mod]
        exact Nat.mod_eq_of_lt (by omega)
      rw [e1, window_getElem arr h L i hiL h2, hlen, hidx]
  · -- wrapped window: tail segment `arr[s..]` then head segment `arr[..e]`
    rw [if_neg hab]
    have hL : L = 2 ^ k - h % 2 ^ k + t % 2 ^ k := by omega
    simp only [List.flatten_cons, List.flatten_nil, List.append_nil]
    apply List.ext_getElem
    · simp only [List.length_append, List.length_drop, List.length_take,
        window_length]
      omega
    · intro i h1 h2
      have hiL : i < L := by simpa [window_length] using h2
      rw [window_getElem arr h L i hiL h2]
      rcases Nat.lt_or_ge i (2 ^ k - h % 2 ^ k) with hi | hi
      · have e1 : (arr.drop (h % 2 ^ k) ++ arr.take (t % 2 ^ k))[i] =
            arr.getD (h % 2 ^ k + i) 0 := by
          rw [List.getElem_append_left (by simp [List.length_drop]; omega)]
          rw [List.getElem_drop]
          exact (List.getD_eq_getElem _ _ _).symm
        have hidx : (h + i) % 2 ^ k = h % 2 ^ k + i := by
          rw [← Nat.mod_add_mod]
          exact Nat.mod_eq_of_lt (by omega)
        rw [e1, hlen, hidx]
      · have e1 : (arr.drop (h % 2 ^ k) ++ arr.take (t % 2 ^ k))[i] =
            arr.getD (i - (2 ^ k - h % 2 ^ k)) 0 := by
          rw [List.getElem_append_right (by simp [List.length_drop]; omega)]
          rw [List.getElem_take]
          rw [← List.getD_eq_getElem _ 0]
          congr 1
          simp only [List.length_drop, hlen]
        have hidx : (h + i) % 2 ^ k = i - (2 ^ k - h % 2 ^ k) := by
          rw [← Nat.mod_add_mod, Nat.mod_eq_sub_mod (by omega),
            Nat.mod_eq_of_lt (by omega)]
          omega
        rw [e1, hlen, hidx]

/-! ## Scatter characterization of `push`'s array write -/

theorem copy_to_seq_pair (src d1 d2 : List Nat) :
    copy_to_seq src [d1, d2] =
      (min src.length d1.length +
          min (src.length - min src.length d1.length) d2.length,
       [src.take (min src.length d1.length) ++
          d1.drop (min src.length d1.length),
        (src.drop (min src.length d1.length)).take
            (min (src.length - min src.length d1.length) d2.length) ++
          d2.drop (min (src.length - min src.length d1.length) d2.length)]) := by
  simp [copy_to_seq, List.length_drop]

theorem as_slices_pos (k : Nat) (arr : List Nat) (t h : Nat)
    (hlen : arr.length = 2 ^ k) (hab : t % 2 ^ k < h % 2 ^ k) :
    as_slices arr t h = [(arr.take (h % 2 ^ k)).drop (t % 2 ^ k), []] := by
  simp [as_slices, hlen, internal_index_eq_mod, if_pos hab]

theorem as_slices_neg (k : Nat) (arr : List Nat) (t h : Nat)
    (hlen : arr.length = 2 ^ k) (hab : ¬ t % 2 ^ k < h % 2 ^ k) :
    as_slices arr t h = [arr.drop (t % 2 ^ k), arr.take (h % 2 ^ k)] := by
  simp [as_slices, hlen, internal_index_eq_mod, if_neg hab]

theorem write_back_pos (k : Nat) (arr : List Nat) (t h : Nat)
    (D1 D2 : List Nat) (hlen : arr.length = 2 ^ k)
    (hab : t % 2 ^ k < h % 2 ^ k) :
    write_back arr t h [D1, D2] =
      arr.take (t % 2 ^ k) ++ D1 ++ arr.drop (h % 2 ^ k) := by
  simp [write_back, hlen, internal_index_eq_mod, if_pos hab]

theorem write_back_neg (k : Nat) (arr : List Nat) (t h : Nat)
    (D1 D2 : List Nat) (hlen : arr.length = 2 ^ k)
    (hab : ¬ t % 2 ^ k < h % 2 ^ k) :
    write_back arr t h [D1, D2] =
      D2 ++ (arr.take (t % 2 ^ k)).drop (h % 2 ^ k) ++ D1 := by
  simp [write_back, hlen, internal_index_eq_mod, if_neg hab]

theorem push_write_spec (k : Nat) (arr src : List Nat) (t h F : Nat)
    (hlen : arr.length = 2 ^ k) (hF0 : 0 < F) (hFcap : F ≤ 2 ^ k)
    (hrel : h % 2 ^ k = (t % 2 ^ k + F) % 2 ^ k) :
    (copy_to_seq src (as_slices_mut arr t h)).1 = min src.length F ∧
    (write_back arr t h (copy_to_seq src (as_slices_mut arr t h)).2).length
        = 2 ^ k ∧
    ∀ j : Nat, j < 2 ^ k →
      (write_back arr t h
          (copy_to_seq src (as_slices_mut arr t h)).2).getD j 0 =
        if (j + 2 ^ k - t % 2 ^ k) % 2 ^ k < min src.length F
        then src.getD ((j + 2 ^ k - t % 2 ^ k) % 2 ^ k) 0
        else arr.getD j 0 := by
  have hcap0 : 0 < 2 ^ k := Nat.two_pow_pos k
  have ha : t % 2 ^ k < 2 ^ k := Nat.mod_lt _ hcap0
  have hb : h % 2 ^ k < 2 ^ k := Nat.mod_lt _ hcap0
  have hcases := add_mod_cases (t % 2 ^ k) F (2 ^ k) hcap0 ha hFcap
  by_cases hab : t % 2 ^ k < h % 2 ^ k
  · -- free window is contiguous
    have hF : F = h % 2 ^ k - t % 2 ^ k := by omega
    rw [as_slices_mut, as_slices_pos k arr t h hlen hab, copy_to_seq_pair]
    have hd1len : ((arr.take (h % 2 ^ k)).drop (t % 2 ^ k)).length
        = h % 2 ^ k - t % 2 ^ k := by
      simp [List.length_drop, List.length_take, hlen]
      omega
    rw [hd1len]
    simp only [List.length_nil, Nat.min_zero, List.take_zero, List.drop_nil,
      List.nil_append, Nat.add_zero]
    rw [write_back_pos k arr t h _ _ hlen hab]
    refine ⟨by omega, ?_, ?_⟩
    · simp only [List.length_append, List.length_take, List.length_drop,
        hlen]
      omega
    · intro j hj
      set a := t % 2 ^ k with hadef
      set b := h % 2 ^ k with hbdef
      set n1 := min src.length (b - a) with hn1def
      have hn1 : n1 ≤ b - a := Nat.min_le_right _ _
      have hn1src : n1 ≤ src.length := Nat.min_le_left _ _
      have hD1len : (src.take n1 ++
          ((arr.take b).drop a).drop n1).length = b - a := by
        simp only [List.length_append, List.length_take, List.length_drop,
          hlen]
        omega
      rcases Nat.lt_or_ge j a with h1 | h1
      · -- untouched prefix before the free window
        have hoff : (j + 2 ^ k - a) % 2 ^ k = j + 2 ^ k - a :=
          Nat.mod_eq_of_lt (by omega)
        rw [List.getD_append _ _ _ _ (by
          simp only [List.length_append, List.length_take, hlen, hD1len]
          omega)]
        rw [List.getD_append _ _ _ _ (by
          simp only [List.length_take, hlen]
          omega)]
        rw [getD_take_of_lt _ _ _ _ h1, hoff, if_neg (by omega)]
      · rcases Nat.lt_or_ge j b with h2 | h2
        · -- inside the free window
          have hoff : (j + 2 ^ k - a) % 2 ^ k = j - a := by
            rw [Nat.mod_eq_sub_mod (by omega)]
            have : j + 2 ^ k - a - 2 ^ k = j - a := by omega
            rw [this]
            exact Nat.mod_eq_of_lt (by omega)
          rw [List.getD_append _ _ _ _ (by
            simp only [List.length_append, List.length_take, hlen, hD1len]
            omega)]
          rw [getD_append_right _ _ _ _ (by
            simp only [List.length_take, hlen]
            omega)]
          have hja : j - (arr.take a).length = j - a := by
            simp only [List.length_take, hlen]
            omega
          rw [hja, hoff]
          rcases Nat.lt_or_ge (j - a) n1 with h3 | h3
          · -- freshly written element
            rw [List.getD_append _ _ _ _ (by
              simp only [List.length_take]
              omega)]
            rw [getD_take_of_lt _ _ _ _ h3, if_pos (by omega)]
          · -- free slot beyond what was written: old contents survive
            rw [getD_append_right _ _ _ _ (by
              simp only [List.length_take]
              omega)]
            rw [if_neg (by omega)]
            have hjn : j - a - (src.take n1).length = j - a - n1 := by
              simp only [List.length_take]
              omega
            rw [hjn, getD_drop, getD_drop, getD_take_of_lt _ _ _ _ (by omega)]
            congr 1
            omega
        · -- untouched suffix after the free window
          have hoff : (j + 2 ^ k - a) % 2 ^ k = j - a := by
            rw [Nat.mod_eq_sub_mod (by omega)]
            have : j + 2 ^ k - a - 2 ^ k = j - a := by omega
            rw [this]
            exact Nat.mod_eq_of_lt (by omega)
          rw [getD_append_right _ _ _ _ (by
            simp only [List.length_append, List.length_take, hlen, hD1len]
            omega)]
          rw [hoff, if_neg (by omega)]
          have hjb : j - (arr.take a ++ (src.take n1 ++
              ((arr.take b).drop a).drop n1)).length = j - b := by
            simp only [List.length_append, List.length_take, hlen, hD1len]
            omega
          rw [hjb, getD_drop]
          congr 1
          omega
  · -- free window wraps the physical boundary
    have hF2 : F = 2 ^ k - t % 2 ^ k + h % 2 ^ k := by omega
    rw [as_slices_mut, as_slices_neg k arr t h hlen hab, copy_to_seq_pair]
    have hd1len : (arr.drop (t % 2 ^ k)).length = 2 ^ k - t % 2 ^ k := by
      simp [List.length_drop, hlen]
    have hd2len : (arr.take (h % 2 ^ k)).length = h % 2 ^ k := by
      simp [List.length_take, hlen]
      omega
    rw [hd1len, hd2len]
    rw [write_back_neg k arr t h _ _ hlen hab]
    set a := t % 2 ^ k with hadef
    set b := h % 2 ^ k with hbdef
    set n1 := min src.length (2 ^ k - a) with hn1def
    set n2 := min (src.length - n1) b with hn2def
    have hba : b ≤ a := by omega
    have hn1a : n1 ≤ 2 ^ k - a := Nat.min_le_right _ _
    have hn1src : n1 ≤ src.length := Nat.min_le_left _ _
    have hn2b : n2 ≤ b := Nat.min_le_right _ _
    have hn2src : n2 ≤ src.length - n1 := Nat.min_le_left _ _
    have hD1len : (src.take n1 ++ (arr.drop a).drop n1).length
        = 2 ^ k - a := by
      simp only [List.length_append, List.length_take, List.length_drop,
        hlen]
      omega
    have hD2len : ((src.drop n1).take n2 ++ (arr.take b).drop n2).length
        = b := by
      simp only [List.length_append, List.length_take, List.length_drop,
        hlen]
      omega
    refine ⟨by omega, ?_, ?_⟩
    · simp only [List.length_append, List.length_take, List.length_drop,
        hD1len, hD2len, hlen]
      omega
    · intro j hj
      rcases Nat.lt_or_ge j b with h1 | h1
      · -- head segment of the free window (past the physical wrap point)
        have hoff : (j + 2 ^ k - a) % 2 ^ k = j + 2 ^ k - a :=
          Nat.mod_eq_of_lt (by omega)
        rw [List.getD_append _ _ _ _ (by
          simp only [List.length_append, hD2len, List.length_drop,
            List.length_take, hlen]
          omega)]
        rw [List.getD_append _ _ _ _ (by rw [hD2len]; omega)]
        rcases Nat.lt_or_ge j n2 with h2 | h2
        · -- freshly written element in the head segment
          have hn2pos : n1 = 2 ^ k - a := by omega
          rw [List.getD_append _ _ _ _ (by
            simp only [List.length_take, List.length_drop]
            omega)]
          rw [getD_take_of_lt _ _ _ _ h2, getD_drop, hoff,
            if_pos (by omega)]
          congr 1
          omega
        · -- head-segment slot beyond what was written: old contents survive
          rw [getD_append_right _ _ _ _ (by
            simp only [List.length_take, List.length_drop]
            omega)]
          have hjn : j - ((src.drop n1).take n2).length = j - n2 := by
            simp only [List.length_take, List.length_drop]
            omega
          rw [hjn, getD_drop, getD_take_of_lt _ _ _ _ (by omega), hoff,
            if_neg (by omega)]
          congr 1
          omega
      · rcases Nat.lt_or_ge j a with h2 | h2
        · -- untouched middle region between the live window ends
          have hoff : (j + 2 ^ k - a) % 2 ^ k = j + 2 ^ k - a :=
            Nat.mod_eq_of_lt (by omega)
          rw [List.getD_append _ _ _ _ (by
            simp only [List.length_append, hD2len, List.length_drop,
              List.length_take, hlen]
            omega)]
          rw [getD_append_right _ _ _ _ (by rw [hD2len]; omega)]
          have hjb : j - ((src.drop n1).take n2 ++
              (arr.take b).drop n2).length = j - b := by
            rw [hD2len]
          rw [hjb, getD_drop, getD_take_of_lt _ _ _ _ (by omega), hoff,
            if_neg (by omega)]
          congr 1
          omega
        · -- tail segment of the free window (before the wrap point)
          have hoff : (j + 2 ^ k - a) % 2 ^ k = j - a := by
            rw [Nat.mod_eq_sub_mod (by omega)]
            have : j + 2 ^ k - a - 2 ^ k = j - a := by omega
            rw [this]
            exact Nat.mod_eq_of_lt (by omega)
          rw [getD_append_right _ _ _ _ (by
            simp only [List.length_append, hD2len, List.length_drop,
              List.length_take, hlen]
            omega)]
          have hja : j - ((src.drop n1).take n2 ++ (arr.take b).drop n2 ++
              (arr.take a).drop b).length = j - a := by
            simp only [List.length_append, hD2len, List.length_drop,
              List.length_take, hlen]
            omega
          rw [hja, hoff]
          rcases Nat.lt_or_ge (j - a) n1 with h3 | h3
          · -- freshly written element in the tail segment
            rw [List.getD_append _ _ _ _ (by
              simp only [List.length_take]
              omega)]
            rw [getD_take_of_lt _ _ _ _ h3, if_pos (by omega)]
          · -- tail-segment slot beyond what was written
            rw [getD_append_right _ _ _ _ (by
              simp only [List.length_take]
              omega)]
            have hjn : j - a - (src.take n1).length = j - a - n1 := by
              simp only [List.length_take]
              omega
            rw [hjn, getD_drop, getD_drop, if_neg (by omega)]
            congr 1
            omega

/-! ## The state invariant and the queue abstraction lemmas -/

/-- The well-formedness invariant of ring-buffer states: power-of-two array
length, in-range cursors, and live count within capacity. -/
def Good (k : Nat) (S : RingState) : Prop :=
  S.arr.length = 2 ^ k ∧ S.head < usizeMod ∧ S.tail < usizeMod ∧
    S.len ≤ S.capacity

/-- Offset of a live-window slot from the write start, computed the way the
characterization of `push` indexes it. -/
theorem off_compute (cap x i L : Nat) (hcap : 0 < cap) (hi : i < L)
    (hL : L ≤ cap) :
    ((x + i) % cap + cap - (x + L) % cap) % cap = cap - L + i := by
  have hxa : x % cap < cap := Nat.mod_lt _ hcap
  have h1 : (x + i) % cap = (x % cap + i) % cap := by rw [Nat.mod_add_mod]
  have h2 : (x + L) % cap = (x % cap + L) % cap := by rw [Nat.mod_add_mod]
  have hci := add_mod_cases (x % cap) i cap hcap hxa (by omega)
  have hcL := add_mod_cases (x % cap) L cap hcap hxa hL
  have hV : (x + i) % cap + cap - (x + L) % cap = cap - L + i ∨
      (x + i) % cap + cap - (x + L) % cap = 2 * cap - L + i := by omega
  rcases hV with hV | hV
  · rw [hV]
    exact Nat.mod_eq_of_lt (by omega)
  · rw [hV, Nat.mod_eq_sub_mod (by omega)]
    have : 2 * cap - L + i - cap = cap - L + i := by omega
    rw [this]
    exact Nat.mod_eq_of_lt (by omega)

/-- Offset of a newly written slot from the write start. -/
theorem off_compute_new (cap x i : Nat) (hcap : 0 < cap) (hi : i < cap) :
    ((x + i) % cap + cap - x % cap) % cap = i := by
  have hxa : x % cap < cap := Nat.mod_lt _ hcap
  have h1 : (x + i) % cap = (x % cap + i) % cap := by rw [Nat.mod_add_mod]
  have hci := add_mod_cases (x % cap) i cap hcap hxa (by omega)
  have hV : (x + i) % cap + cap - x % cap = i ∨
      (x + i) % cap + cap - x % cap = cap + i := by omega
  rcases hV with hV | hV
  · rw [hV]
    exact Nat.mod_eq_of_lt (by omega)
  · rw [hV, Nat.mod_eq_sub_mod (by omega)]
    have : cap + i - cap = i := by omega
    rw [this]
    exact Nat.mod_eq_of_lt (by omega)

/-- `copy_to` gathers exactly the first `destLen` live bytes. -/
theorem copy_to_spec (k : Nat) (S : RingState) (destLen : Nat)
    (hk : k ≤ 64) (hg : Good k S) :
    S.copy_to destLen = S.abs.take destLen := by
  obtain ⟨hlen, hh, ht, hcap⟩ := hg
  rw [RingState.copy_to]
  by_cases he : S.head = S.tail
  · have hL : S.len = 0 := by
      rw [RingState.len, he, wrappingSub_self _ ht]
    rw [if_pos he]
    rw [RingState.abs, hL, window_zero, List.take_nil]
  · have hL : 0 < S.len := by
      rcases Nat.eq_zero_or_pos S.len with h0 | h0
      · exact absurd ((wrappingSub_eq_zero_iff S.head S.tail hh ht).mp h0) he
      · exact h0
    rw [if_neg he, copy_from_seq, copy_seq_eq_flatten_take]
    rw [flatten_as_slices k S.arr S.head S.tail S.len hlen hL
      (by rw [← hlen]; exact hcap)
      (by
        have := add_wrappingSub_mod (2 ^ k) S.head S.tail
          (two_pow_dvd_usizeMod hk) hh
        rw [← this]
        rfl)]
    rfl

/-- Everything `pull` does, phrased against the queue abstraction: it
returns the first `min destLen len` live bytes and removes them. -/
theorem pull_spec (k : Nat) (S : RingState) (destLen : Nat)
    (hk : k < 64) (hg : Good k S) :
    (S.pull destLen).1 = S.abs.take destLen ∧
    (S.pull destLen).1.length = min destLen S.len ∧
    (S.pull destLen).2.arr = S.arr ∧
    (S.pull destLen).2.tail = S.tail ∧
    (S.pull destLen).2.head = wrappingAdd S.head (min destLen S.len) ∧
    (S.pull destLen).2.len = S.len - min destLen S.len ∧
    (S.pull destLen).2.abs = S.abs.drop (min destLen S.len) := by
  obtain ⟨hlen, hh, ht, hcap⟩ := hg
  have hct := copy_to_spec k S destLen (le_of_lt hk) ⟨hlen, hh, ht, hcap⟩
  have habslen : S.abs.length = S.len := by
    rw [RingState.abs, window_length]
  have hbytes : (S.copy_to destLen).length = min destLen S.len := by
    rw [hct, List.length_take, habslen]
  have hc : min (S.copy_to destLen).length S.len = min destLen S.len := by
    rw [hbytes]
    omega
  refine ⟨hct, ?_, rfl, rfl, ?_, ?_, ?_⟩
  · show (S.copy_to destLen).length = destLen ⊓ S.len
    exact hbytes
  · show wrappingAdd S.head (min (S.copy_to destLen).length S.len) = _
    rw [hc]
  · show wrappingSub S.tail
      (wrappingAdd S.head (min (S.copy_to destLen).length S.len)) = _
    rw [hc, wrappingSub_wrappingAdd_right S.head S.tail _ hh
      (by rw [← RingState.len]; omega)]
    rfl
  · show window _ (wrappingAdd S.head (min (S.copy_to destLen).length S.len))
      (wrappingSub S.tail (wrappingAdd S.head
        (min (S.copy_to destLen).length S.len))) = _
    rw [hc, wrappingSub_wrappingAdd_right S.head S.tail _ hh
      (by rw [← RingState.len]; omega)]
    show window S.arr _ _ = _
    rw [wrappingAdd, window_mod_start S.arr _ _ _
      (by rw [hlen]; exact two_pow_dvd_usizeMod (le_of_lt hk))]
    rw [← window_drop]
    rfl

/-- Everything a non-full `push` does, phrased against the queue
abstraction: it appends as much of `src` as fits and reports that count. -/
theorem push_spec (k : Nat) (S : RingState) (src : List Nat)
    (hk : k < 64) (hg : Good k S) (hnf : S.len < S.capacity) :
    (S.push src).1 = min src.length (S.capacity - S.len) ∧
    (S.push src).2.arr.length = 2 ^ k ∧
    (S.push src).2.head = S.head ∧
    (S.push src).2.tail = wrappingAdd S.tail (S.push src).1 ∧
    (S.push src).2.len = S.len + (S.push src).1 ∧
    (S.push src).2.abs = S.abs ++ src.take (S.push src).1 := by
  obtain ⟨hlen, hh, ht, hcap⟩ := hg
  have hcap0 : 0 < 2 ^ k := Nat.two_pow_pos k
  have hcapk : S.capacity = 2 ^ k := hlen
  have h264 : 2 ^ k < usizeMod := by
    rw [usizeMod]
    exact Nat.pow_lt_pow_right (by norm_num) hk
  have hF0 : 0 < S.capacity - S.len := by omega
  have hFcap : S.capacity - S.len ≤ 2 ^ k := by omega
  have hdvd := two_pow_dvd_usizeMod (le_of_lt hk)
  have hht : (S.head + S.len) % 2 ^ k = S.tail % 2 ^ k :=
    add_wrappingSub_mod (2 ^ k) S.head S.tail hdvd hh
  have hrel : S.head % 2 ^ k
      = (S.tail % 2 ^ k + (S.capacity - S.len)) % 2 ^ k := by
    have : (S.tail % 2 ^ k + (S.capacity - S.len)) % 2 ^ k
        = S.head % 2 ^ k := by
      calc (S.tail % 2 ^ k + (S.capacity - S.len)) % 2 ^ k
          = ((S.head + S.len) % 2 ^ k + (S.capacity - S.len)) % 2 ^ k := by
            rw [hht]
        _ = (S.head + S.len + (S.capacity - S.len)) % 2 ^ k := by
            rw [Nat.mod_add_mod]
        _ = (S.head + 2 ^ k) % 2 ^ k := by
            congr 1
            omega
        _ = S.head % 2 ^ k := Nat.add_mod_right _ _
    exact this.symm
  have hneq : ¬ (wrappingSub S.tail S.head = S.capacity) := by
    show ¬ (S.len = S.capacity)
    omega
  obtain ⟨hcnt, hlen2, hpt⟩ := push_write_spec k S.arr src S.tail S.head
    (S.capacity - S.len) hlen hF0 hFcap hrel
  have hpush : S.push src =
      ((copy_to_seq src (as_slices_mut S.arr S.tail S.head)).1,
       { arr := write_back S.arr S.tail S.head
           (copy_to_seq src (as_slices_mut S.arr S.tail S.head)).2,
         head := S.head,
         tail := wrappingAdd S.tail
           (copy_to_seq src (as_slices_mut S.arr S.tail S.head)).1 }) := by
    unfold RingState.push
    rw [if_neg hneq]
  rw [hpush]
  dsimp only
  set p := (copy_to_seq src (as_slices_mut S.arr S.tail S.head)).1 with hpdef
  set A := write_back S.arr S.tail S.head
    (copy_to_seq src (as_slices_mut S.arr S.tail S.head)).2 with hAdef
  have hpF : p ≤ S.capacity - S.len := by
    rw [hcnt]
    omega
  have hpsrc : p ≤ src.length := by
    rw [hcnt]
    omega
  have hlen5 : wrappingSub (wrappingAdd S.tail p) S.head = S.len + p := by
    rw [wrappingSub_wrappingAdd_left S.head S.tail p hh
      (by show S.len + p < usizeMod; omega)]
    rfl
  have hA : window A S.head S.len = window S.arr S.head S.len := by
    apply List.ext_getElem
    · simp [window_length]
    · intro i h1 h2
      have hiL : i < S.len := by simpa [window_length] using h1
      rw [window_getElem A S.head S.len i hiL h1,
        window_getElem S.arr S.head S.len i hiL h2, hlen2, hlen]
      have hj : (S.head + i) % 2 ^ k < 2 ^ k := Nat.mod_lt _ hcap0
      rw [hpt _ hj]
      have hoff : ((S.head + i) % 2 ^ k + 2 ^ k - S.tail % 2 ^ k) % 2 ^ k
          = 2 ^ k - S.len + i := by
        rw [← hht]
        exact off_compute (2 ^ k) S.head i S.len hcap0 hiL (by omega)
      rw [hoff, if_neg (by omega)]
  have hB : window A (S.head + S.len) p = src.take p := by
    apply List.ext_getElem
    · simp only [window_length, List.length_take]
      omega
    · intro i h1 h2
      have hip : i < p := by simpa [window_length] using h1
      rw [window_getElem A (S.head + S.len) p i hip h1, hlen2]
      have hj : (S.head + S.len + i) % 2 ^ k < 2 ^ k := Nat.mod_lt _ hcap0
      rw [hpt _ hj]
      have hoff : ((S.head + S.len + i) % 2 ^ k + 2 ^ k - S.tail % 2 ^ k)
          % 2 ^ k = i := by
        rw [← hht]
        exact off_compute_new (2 ^ k) (S.head + S.len) i hcap0 (by omega)
      rw [hoff, if_pos (by omega), List.getElem_take]
      exact List.getD_eq_getElem src 0 (by omega)
  refine ⟨hcnt, hlen2, rfl, rfl, hlen5, ?_⟩
  show window A S.head (wrappingSub (wrappingAdd S.tail p) S.head)
    = S.abs ++ src.take p
  rw [hlen5, window_add, hA, hB]
  rfl

/-! ## Preservation of the invariant -/

theorem good_init (k : Nat) (arr0 : List Nat) (h : arr0.length = 2 ^ k) :
    Good k (RingState.init arr0) := by
  refine ⟨h, usizeMod_pos, usizeMod_pos, ?_⟩
  show wrappingSub 0 0 ≤ _
  rw [wrappingSub_self 0 usizeMod_pos]
  exact Nat.zero_le _

theorem good_push (k : Nat) (S : RingState) (src : List Nat)
    (hk : k < 64) (hg : Good k S) : Good k (S.push src).2 := by
  rcases Nat.lt_or_ge S.len S.capacity with hlt | hge
  · obtain ⟨h1, h2, h3, h4, h5, h6⟩ := push_spec k S src hk hg hlt
    obtain ⟨hlen, hh, ht, hcap⟩ := hg
    have hcapk : S.capacity = 2 ^ k := hlen
    have hple : (S.push src).1 ≤ S.capacity - S.len := by
      rw [h1]
      omega
    refine ⟨h2, ?_, ?_, ?_⟩
    · rw [h3]
      exact hh
    · rw [h4]
      exact wrappingAdd_lt _ _
    · show (S.push src).2.len ≤ (S.push src).2.arr.length
      rw [h5, h2]
      omega
  · obtain ⟨hlen, hh, ht, hcap⟩ := hg
    have heq : S.len = S.capacity := by omega
    have : S.push src = (0, S) := by
      unfold RingState.push
      rw [if_pos (show wrappingSub S.tail S.head = S.capacity from heq)]
    rw [this]
    exact ⟨hlen, hh, ht, hcap⟩

theorem good_consume (k : Nat) (S : RingState) (n : Nat)
    (hg : Good k S) : Good k (S.consume n).2 := by
  obtain ⟨hlen, hh, ht, hcap⟩ := hg
  refine ⟨hlen, wrappingAdd_lt _ _, ht, ?_⟩
  show wrappingSub S.tail (wrappingAdd S.head (min n S.len)) ≤ _
  rw [wrappingSub_wrappingAdd_right S.head S.tail (min n S.len) hh
    (Nat.min_le_right n S.len)]
  show wrappingSub S.tail S.head - _ ≤ S.arr.length
  have hcapk : S.capacity = S.arr.length := rfl
  have hle : wrappingSub S.tail S.head ≤ S.capacity := hcap
  omega

theorem good_readerClear (k : Nat) (S : RingState) (hg : Good k S) :
    Good k S.readerClear := by
  obtain ⟨hlen, hh, ht, hcap⟩ := hg
  refine ⟨hlen, ht, ht, ?_⟩
  show wrappingSub S.tail S.tail ≤ _
  rw [wrappingSub_self _ ht]
  exact Nat.zero_le _

theorem good_writerClear (k : Nat) (S : RingState) (hg : Good k S) :
    Good k S.writerClear := good_readerClear k S hg

theorem reach_good (k : Nat) (S : RingState) (hk : k < 64)
    (h : Reach k S) : Good k S := by
  induction h with
  | init arr0 h0 => exact good_init k arr0 h0
  | push S src _ ih => exact good_push k S src hk ih
  | consume S n _ ih => exact good_consume k S n ih
  | readerClear S _ ih => exact good_readerClear k S ih
  | writerClear S _ ih => exact good_writerClear k S ih

theorem good_pull (k : Nat) (S : RingState) (destLen : Nat)
    (hk : k < 64) (hg : Good k S) : Good k (S.pull destLen).2 :=
  good_consume k S _ hg

/-! ## Write-then-read runs over the ring buffer -/

/-- Run a sequence of `push` calls; collect, for each call, the prefix of
its input that was actually written (the reported count). -/
def runPushes (S : RingState) : List (List Nat) → RingState × List (List Nat)
  | [] => (S, [])
  | src :: rest =>
    let r := S.push src
    let rr := runPushes r.2 rest
    (rr.1, src.take r.1 :: rr.2)

/-- Run a sequence of `pull` calls with given destination sizes; collect
the bytes each call returned. -/
def runPulls (S : RingState) : List Nat → RingState × List (List Nat)
  | [] => (S, [])
  | d :: rest =>
    let r := S.pull d
    let rr := runPulls r.2 rest
    (rr.1, r.1 :: rr.2)

theorem runPushes_spec (k : Nat) (srcs : List (List Nat)) (S : RingState)
    (hk : k < 64) (hg : Good k S) :
    Good k (runPushes S srcs).1 ∧
      (runPushes S srcs).1.abs = S.abs ++ (runPushes S srcs).2.flatten := by
  induction srcs generalizing S with
  | nil => simpa [runPushes] using hg
  | cons src rest ih =>
    rcases Nat.lt_or_ge S.len S.capacity with hlt | hge
    · obtain ⟨h1, h2, h3, h4, h5, h6⟩ := push_spec k S src hk hg hlt
      obtain ⟨ihg, ihabs⟩ := ih (S.push src).2 (good_push k S src hk hg)
      refine ⟨by simpa [runPushes] using ihg, ?_⟩
      show (runPushes (S.push src).2 rest).1.abs
        = S.abs ++ (src.take (S.push src).1 ::
            (runPushes (S.push src).2 rest).2).flatten
      rw [ihabs, h6, List.flatten_cons, List.append_assoc]
    · have heq : S.len = S.capacity := by
        obtain ⟨_, _, _, hcap⟩ := hg
        omega
      have hfull : S.push src = (0, S) := by
        unfold RingState.push
        rw [if_pos (show wrappingSub S.tail S.head = S.capacity from heq)]
      obtain ⟨ihg, ihabs⟩ := ih S hg
      constructor
      · show Good k (runPushes (S.push src).2 rest).1
        rw [hfull]
        exact ihg
      · show (runPushes (S.push src).2 rest).1.abs
          = S.abs ++ (src.take (S.push src).1 ::
              (runPushes (S.push src).2 rest).2).flatten
        rw [hfull]
        simpa using ihabs

theorem runPulls_spec (k : Nat) (ds : List Nat) (S : RingState)
    (hk : k < 64) (hg : Good k S) :
    Good k (runPulls S ds).1 ∧
      (runPulls S ds).2.flatten
        = S.abs.take (runPulls S ds).2.flatten.length ∧
      (runPulls S ds).1.abs
        = S.abs.drop (runPulls S ds).2.flatten.length := by
  induction ds generalizing S with
  | nil => simpa [runPulls] using hg
  | cons d rest ih =>
    obtain ⟨h1, h2, h3, h4, h5, h6, h7⟩ := pull_spec k S d hk hg
    obtain ⟨ihg, ihtake, ihdrop⟩ := ih (S.pull d).2 (good_pull k S d hk hg)
    have habslen : S.abs.length = S.len := by
      rw [RingState.abs, window_length]
    have habslen2 : (S.pull d).2.abs.length = S.len - (d ⊓ S.len) := by
      rw [h7, List.length_drop, habslen]
    have hLrle : (runPulls (S.pull d).2 rest).2.flatten.length
        ≤ S.len - (d ⊓ S.len) := by
      have := congrArg List.length ihtake
      rw [List.length_take, habslen2] at this
      omega
    have htake1 : S.abs.take d = S.abs.take (d ⊓ S.len) := by
      rcases Nat.le_total d S.len with hd | hd
      · have : d ⊓ S.len = d := by omega
        rw [this]
      · rw [List.take_of_length_le (by omega),
          List.take_of_length_le (by omega)]
    have hflat : ((S.pull d).1 :: (runPulls (S.pull d).2 rest).2).flatten
        = S.abs.take ((d ⊓ S.len)
            + (runPulls (S.pull d).2 rest).2.flatten.length) := by
      rw [List.flatten_cons, ihtake, h7, h1, htake1, List.take_add]
      congr 2
      rw [List.length_take, List.length_drop, habslen]
      omega
    have hflatlen :
        ((S.pull d).1 :: (runPulls (S.pull d).2 rest).2).flatten.length
          = (d ⊓ S.len) + (runPulls (S.pull d).2 rest).2.flatten.length := by
      rw [hflat, List.length_take]
      omega
    refine ⟨by simpa [runPulls] using ihg, ?_, ?_⟩
    · show ((S.pull d).1 :: (runPulls (S.pull d).2 rest).2).flatten
        = S.abs.take
            (((S.pull d).1 :: (runPulls (S.pull d).2 rest).2).flatten.length)
      rw [hflatlen, hflat]
    · show (runPulls (S.pull d).2 rest).1.abs
        = S.abs.drop
            (((S.pull d).1 :: (runPulls (S.pull d).2 rest).2).flatten.length)
      rw [hflatlen, ihdrop, h7, List.drop_drop]

/-! ## `src/pipe/chunked.rs` -/

/-- A reusable chunk: Rust's `Cursor<Vec<u8>>` — the byte vector plus the
read position. -/
structure Chunk where
  pos : Nat
  data : List Nat
  deriving Repr, DecidableEq

/-- Outcome of polling a suspendable operation. -/
inductive Poll (α : Type) where
  | ready (a : α)
  | pending
  deriving Repr, DecidableEq

/-- The error kinds the pipes surface. -/
inductive IOErr where
  | brokenPipe
  | wouldBlock
  deriving Repr, DecidableEq

/-- An `io::Result<usize>`: the byte count on success, or the error kind. -/
inductive IORes where
  | ok (n : Nat)
  | error (e : IOErr)
  deriving Repr, DecidableEq

/-- State of a chunked pipe.  The two bounded channels are FIFO lists:
`pool` carries empty chunks back to the writer, `stream` carries filled
chunks to the reader; `chunk` is the reader's partially drained chunk.
Dropping the reader closes the stream receiver and the pool sender;
dropping the writer closes the pool receiver and the stream sender. -/
structure CState where
  pool : List Chunk
  stream : List Chunk
  chunk : Option Chunk
  writerDropped : Bool
  readerDropped : Bool
  deriving Repr, DecidableEq

/-- `chunked::new(count)`: the pool channel pre-filled with `count` fresh
empty chunks (`Cursor::new(Vec::new())`), an empty stream channel, no
reader-held chunk. -/
def CState.init (count : Nat) : CState :=
  { pool := List.replicate count ⟨0, []⟩, stream := [], chunk := none,
    writerDropped := false, readerDropped := false }

/-- `Writer::poll_write`, mirroring the source's branches: the early
`is_closed` check on the stream sender; polling the pool channel (`None`
iff the senders are gone — the reader holds the pool sender — and the
buffer is empty, `Pending` if merely empty); `extend_from_slice` of the
whole input into the chunk; `try_send` of the chunk into the stream
channel, whose failure mode (disconnected) repeats the reader-gone test. -/
def poll_write (cs : CState) (buf : List Nat) :
    Poll IORes × CState :=
  if cs.readerDropped then (.ready (.error .brokenPipe), cs)
  else
    match cs.pool with
    | [] =>
      if cs.readerDropped then (.ready (.error .brokenPipe), cs)
      else (.pending, cs)
    | c :: rest =>
      let c' : Chunk := { c with data := c.data ++ buf }
      if cs.readerDropped then
        (.ready (.error .brokenPipe), { cs with pool := rest })
      else
        (.ready (.ok buf.length),
          { cs with pool := rest, stream := cs.stream ++ [c'] })

/-- The tail of `Reader::poll_read` once a chunk is in hand: read through
the cursor (`min destLen (len - pos)` bytes from position `pos`), keep the
chunk when `position < len` afterwards, otherwise reset it
(`set_position(0)`, `clear()`) and `try_send` it back to the pool — on
disconnect (writer gone, who held the pool receiver) discard it silently. -/
def poll_read_from (c : Chunk) (cs : CState) (destLen : Nat) :
    Poll IORes × List Nat × CState :=
  let len := min destLen (c.data.length - c.pos)
  let bytes := (c.data.drop c.pos).take len
  let pos' := c.pos + len
  if pos' < c.data.length then
    (.ready (.ok len), bytes, { cs with chunk := some ⟨pos', c.data⟩ })
  else
    if cs.writerDropped then (.ready (.ok len), bytes, cs)
    else (.ready (.ok len), bytes, { cs with pool := cs.pool ++ [⟨0, []⟩] })

/-- `Reader::poll_read`: use the held chunk if any; otherwise poll the
stream channel — `None` (senders gone and buffer drained) is end of
stream, `Ready(Ok(0))`; an empty open stream is `Pending`. -/
def poll_read (cs : CState) (destLen : Nat) :
    Poll IORes × List Nat × CState :=
  match cs.chunk, cs.stream with
  | some c, _ => poll_read_from c { cs with chunk := none } destLen
  | none, [] =>
    if cs.writerDropped then (.ready (.ok 0), [], cs)
    else (.pending, [], cs)
  | none, c :: rest =>
    poll_read_from c { cs with stream := rest, chunk := none } destLen

/-- Dropping the chunked reader: its pool sender, stream receiver and held
chunk are released. -/
def dropCReader (cs : CState) : CState :=
  { cs with readerDropped := true, chunk := none }

/-- Dropping the chunked writer: its pool receiver and stream sender are
released. -/
def dropCWriter (cs : CState) : CState :=
  { cs with writerDropped := true }

/-- Bytes of a chunk not yet drained by the cursor. -/
def Chunk.rem (c : Chunk) : List Nat := c.data.drop c.pos

/-- Bytes still to be delivered to the reader, in order: remainder of the
held chunk, then the remainders of the streamed chunks. -/
def CState.abs (cs : CState) : List Nat :=
  (match cs.chunk with
   | some c => c.rem
   | none => []) ++ (cs.stream.map Chunk.rem).flatten

/-- Run a sequence of chunked writes, each required to complete
successfully (`Ready(Ok(_))`). -/
def runCWrites (cs : CState) : List (List Nat) → Option CState
  | [] => some cs
  | b :: bs =>
    match poll_write cs b with
    | (.ready (.ok _), cs') => runCWrites cs' bs
    | _ => none

/-- Run a sequence of chunked reads with the given destination sizes, each
required to complete successfully; collects the bytes each one returned. -/
def runCReads (cs : CState) : List Nat → Option (CState × List (List Nat))
  | [] => some (cs, [])
  | d :: ds =>
    match poll_read cs d with
    | (.ready (.ok _), bytes, cs') =>
      match runCReads cs' ds with
      | some r => some (r.1, bytes :: r.2)
      | none => none
    | _ => none

/-- Well-formedness of chunked-pipe states: pool chunks are reset, and the
cursors of streamed and held chunks are in bounds. -/
def CGood (cs : CState) : Prop :=
  (∀ c ∈ cs.pool, c = ⟨0, []⟩) ∧
    (∀ c ∈ cs.stream, c.pos ≤ c.data.length) ∧
    (∀ c, cs.chunk = some c → c.pos ≤ c.data.length)

/-! ## Chunked-pipe abstraction lemmas -/

/-- A successful chunked write appends the whole input as one fresh chunk
at the back of the stream channel and reports the full input length. -/
theorem poll_write_ok (cs : CState) (buf : List Nat) (n : Nat) (cs' : CState)
    (hpool : ∀ c ∈ cs.pool, c = ⟨0, []⟩)
    (h : poll_write cs buf = (.ready (.ok n), cs')) :
    n = buf.length ∧ cs'.stream = cs.stream ++ [⟨0, buf⟩] ∧
      cs'.pool = cs.pool.tail ∧ cs'.chunk = cs.chunk ∧
      cs'.writerDropped = cs.writerDropped ∧
      cs'.readerDropped = cs.readerDropped := by
  unfold poll_write at h
  by_cases hrd : cs.readerDropped
  · rw [if_pos hrd] at h
    simp at h
  · rw [if_neg hrd] at h
    cases hp : cs.pool with
    | nil =>
      rw [hp] at h
      rw [if_neg hrd] at h
      simp at h
    | cons c rest =>
      rw [hp] at h
      simp only [if_neg hrd] at h
      have hc : c = ⟨0, []⟩ := hpool c (by rw [hp]; exact List.mem_cons_self c rest)
      rw [Prod.mk.injEq] at h
      obtain ⟨h1, h2⟩ := h
      cases h1
      subst h2
      refine ⟨rfl, by simp [hc], by simp [hp], rfl, rfl, rfl⟩

/-- A successful chunked write grows the delivery queue by exactly the
bytes written and preserves well-formedness. -/
theorem poll_write_abs (cs : CState) (buf : List Nat) (n : Nat) (cs' : CState)
    (hg : CGood cs) (h : poll_write cs buf = (.ready (.ok n), cs')) :
    n = buf.length ∧ CGood cs' ∧ cs'.abs = cs.abs ++ buf := by
  obtain ⟨hpool, hstream, hchunk⟩ := hg
  obtain ⟨h1, h2, h3, h4, h5, h6⟩ := poll_write_ok cs buf n cs' hpool h
  refine ⟨h1, ⟨?_, ?_, ?_⟩, ?_⟩
  · intro c hc
    exact hpool c (by rw [h3] at hc; exact List.mem_of_mem_tail hc)
  · intro c hc
    rw [h2] at hc
    rcases List.mem_append.mp hc with hm | hm
    · exact hstream c hm
    · rw [List.mem_singleton.mp hm]
      exact Nat.zero_le _
  · intro c hc
    exact hchunk c (by rw [← h4]; exact hc)
  · rw [CState.abs, CState.abs, h4, h2, List.map_append, List.flatten_append]
    simp [Chunk.rem, List.append_assoc]

/-- Characterization of the cursor-read tail of `poll_read`, against the
delivery queue headed by the in-hand chunk. -/
theorem poll_read_from_spec (c : Chunk) (cs1 : CState) (destLen : Nat)
    (hc : c.pos ≤ c.data.length) (hchunk : cs1.chunk = none)
    (hpool : ∀ x ∈ cs1.pool, x = ⟨0, []⟩)
    (hstream : ∀ x ∈ cs1.stream, x.pos ≤ x.data.length) :
    (poll_read_from c cs1 destLen).1 =
        .ready (.ok (min destLen (c.data.length - c.pos))) ∧
      (poll_read_from c cs1 destLen).2.1 =
        (c.rem ++ cs1.abs).take (min destLen (c.data.length - c.pos)) ∧
      (poll_read_from c cs1 destLen).2.2.abs =
        (c.rem ++ cs1.abs).drop (min destLen (c.data.length - c.pos)) ∧
      CGood (poll_read_from c cs1 destLen).2.2 ∧
      (poll_read_from c cs1 destLen).2.2.writerDropped = cs1.writerDropped ∧
      (poll_read_from c cs1 destLen).2.2.readerDropped = cs1.readerDropped := by
  have hremlen : c.rem.length = c.data.length - c.pos := by
    rw [Chunk.rem, List.length_drop]
  have habs1 : cs1.abs = (cs1.stream.map Chunk.rem).flatten := by
    rw [CState.abs, hchunk]
    rfl
  set len := min destLen (c.data.length - c.pos) with hlendef
  have hlenle : len ≤ c.data.length - c.pos := Nat.min_le_right _ _
  have hbytes : (c.data.drop c.pos).take len
      = (c.rem ++ cs1.abs).take len := by
    rw [List.take_append_eq_append_take, hremlen,
      Nat.sub_eq_zero_of_le hlenle, List.take_zero, List.append_nil]
    rfl
  unfold poll_read_from
  rw [← hlendef]
  by_cases hkeep : c.pos + len < c.data.length
  · rw [if_pos hkeep]
    refine ⟨rfl, hbytes, ?_, ⟨hpool, hstream, ?_⟩, rfl, rfl⟩
    · show (⟨c.pos + len, c.data⟩ : Chunk).rem
          ++ (cs1.stream.map Chunk.rem).flatten = _
      rw [List.drop_append_eq_append_drop, hremlen,
        Nat.sub_eq_zero_of_le hlenle, List.drop_zero]
      congr 1
      · show c.data.drop (c.pos + len) = c.rem.drop len
        rw [Chunk.rem, List.drop_drop]
      · exact habs1.symm
    · intro x hx
      have hx2 : some (⟨c.pos + len, c.data⟩ : Chunk) = some x := hx
      cases hx2
      simpa using le_of_lt hkeep
  · rw [if_neg hkeep]
    have hlen2 : len = c.data.length - c.pos := by omega
    have habs2 : (c.rem ++ cs1.abs).drop len = cs1.abs := by
      rw [List.drop_append_eq_append_drop, hremlen, hlen2]
      simp [List.drop_of_length_le, hremlen]
    by_cases hwd : cs1.writerDropped
    · rw [if_pos hwd]
      refine ⟨rfl, hbytes, ?_, ⟨hpool, hstream, ?_⟩, rfl, rfl⟩
      · show cs1.abs = (c.rem ++ cs1.abs).drop len
        exact habs2.symm
      · intro x hx
        have hx2 : cs1.chunk = some x := hx
        rw [hchunk] at hx2
        cases hx2
    · rw [if_neg hwd]
      refine ⟨rfl, hbytes, ?_, ⟨?_, hstream, ?_⟩, rfl, rfl⟩
      · show cs1.abs = (c.rem ++ cs1.abs).drop len
        exact habs2.symm
      · intro x hx
        rcases List.mem_append.mp hx with hm | hm
        · exact hpool x hm
        · exact List.mem_singleton.mp hm
      · intro x hx
        have hx2 : cs1.chunk = some x := hx
        rw [hchunk] at hx2
        cases hx2

/-- A successful chunked read returns exactly the next `n` bytes of the
delivery queue and removes them, preserving well-formedness. -/
theorem poll_read_ok (cs : CState) (destLen n : Nat) (bytes : List Nat)
    (cs' : CState) (hg : CGood cs)
    (h : poll_read cs destLen = (.ready (.ok n), bytes, cs')) :
    bytes = cs.abs.take n ∧ bytes.length = n ∧
      cs'.abs = cs.abs.drop n ∧ CGood cs' := by
  obtain ⟨hpool, hstream, hchunk⟩ := hg
  rcases hcc : cs.chunk with _ | c
  · rcases hss : cs.stream with _ | ⟨c, rest⟩
    · -- no chunk anywhere: end of stream or pending
      rw [poll_read, hcc, hss] at h
      dsimp only at h
      by_cases hwd : cs.writerDropped
      · rw [if_pos hwd] at h
        rw [Prod.mk.injEq, Prod.mk.injEq] at h
        obtain ⟨e1, e2, e3⟩ := h
        cases e1
        subst e2
        subst e3
        refine ⟨by simp, by simp, by simp, hpool, hstream, hchunk⟩
      · rw [if_neg hwd] at h
        simp at h
    · -- take the next chunk from the stream
      rw [poll_read, hcc, hss] at h
      dsimp only at h
      have hcb : c.pos ≤ c.data.length :=
        hstream c (by rw [hss]; exact List.mem_cons_self c rest)
      obtain ⟨s1, s2, s3, s4, s5, s6⟩ := poll_read_from_spec c
        { cs with stream := rest, chunk := none } destLen hcb rfl
        hpool (fun x hx => hstream x (by rw [hss]; exact List.mem_cons_of_mem c hx))
      have h1 : (poll_read_from c { cs with stream := rest, chunk := none }
          destLen).1 = .ready (.ok n) := by rw [h]
      have h2 : (poll_read_from c { cs with stream := rest, chunk := none }
          destLen).2.1 = bytes := by rw [h]
      have h3 : (poll_read_from c { cs with stream := rest, chunk := none }
          destLen).2.2 = cs' := by rw [h]
      rw [s1] at h1
      have hn : n = min destLen (c.data.length - c.pos) := by
        cases h1
        rfl
      have habs : cs.abs = c.rem
          ++ (CState.abs { cs with stream := rest, chunk := none }) := by
        simp [CState.abs, hcc, hss]
      have hrem : c.rem.length = c.data.length - c.pos := by
        rw [Chunk.rem, List.length_drop]
      refine ⟨?_, ?_, ?_, ?_⟩
      · rw [← h2, s2, habs, hn]
      · rw [← h2, s2, List.length_take, List.length_append, hrem, hn]
        omega
      · rw [← h3, s3, habs, hn]
      · rw [← h3]
        exact s4
  · -- continue the chunk held from a previous read
    rw [poll_read, hcc] at h
    dsimp only at h
    have hcb : c.pos ≤ c.data.length := hchunk c hcc
    obtain ⟨s1, s2, s3, s4, s5, s6⟩ := poll_read_from_spec c
      { cs with chunk := none } destLen hcb rfl hpool hstream
    have h1 : (poll_read_from c { cs with chunk := none }
        destLen).1 = .ready (.ok n) := by rw [h]
    have h2 : (poll_read_from c { cs with chunk := none }
        destLen).2.1 = bytes := by rw [h]
    have h3 : (poll_read_from c { cs with chunk := none }
        destLen).2.2 = cs' := by rw [h]
    rw [s1] at h1
    have hn : n = min destLen (c.data.length - c.pos) := by
      cases h1
      rfl
    have habs : cs.abs = c.rem
        ++ (CState.abs { cs with chunk := none }) := by
      simp [CState.abs, hcc]
    have hrem : c.rem.length = c.data.length - c.pos := by
      rw [Chunk.rem, List.length_drop]
    refine ⟨?_, ?_, ?_, ?_⟩
    · rw [← h2, s2, habs, hn]
    · rw [← h2, s2, List.length_take, List.length_append, hrem, hn]
      omega
    · rw [← h3, s3, habs, hn]
    · rw [← h3]
      exact s4

theorem cgood_init (count : Nat) : CGood (CState.init count) := by
  refine ⟨?_, ?_, ?_⟩
  · intro c hc
    exact List.eq_of_mem_replicate hc
  · intro c hc
    cases hc
  · intro c hc
    cases hc

theorem cstate_init_abs (count : Nat) : (CState.init count).abs = [] := rfl

theorem runCWrites_spec (bufs : List (List Nat)) (cs cs1 : CState)
    (hg : CGood cs) (h : runCWrites cs bufs = some cs1) :
    CGood cs1 ∧ cs1.abs = cs.abs ++ bufs.flatten := by
  induction bufs generalizing cs with
  | nil =>
    rw [runCWrites] at h
    cases h
    simp [hg]
  | cons b bs ih =>
    rw [runCWrites] at h
    rcases hw : poll_write cs b with ⟨p, csx⟩
    rw [hw] at h
    match p, h with
    | .ready (.ok m), h =>
      obtain ⟨h1, h2, h3⟩ := poll_write_abs cs b m csx hg hw
      obtain ⟨ihg, ihabs⟩ := ih csx h2 h
      refine ⟨ihg, ?_⟩
      rw [ihabs, h3, List.flatten_cons, List.append_assoc]

theorem runCReads_spec (ds : List Nat) (cs : CState) (cs2 : CState)
    (outs : List (List Nat)) (hg : CGood cs)
    (h : runCReads cs ds = some (cs2, outs)) :
    CGood cs2 ∧ outs.flatten = cs.abs.take outs.flatten.length ∧
      cs2.abs = cs.abs.drop outs.flatten.length := by
  induction ds generalizing cs outs with
  | nil =>
    rw [runCReads] at h
    cases h
    simp [hg]
  | cons d ds ih =>
    rw [runCReads] at h
    rcases hr : poll_read cs d with ⟨p, bytes, csx⟩
    rw [hr] at h
    match p, h with
    | .ready (.ok m), h =>
      obtain ⟨r1, r2, r3, r4⟩ := poll_read_ok cs d m bytes csx hg hr
      have h2 : (match runCReads csx ds with
        | some r => some (r.1, bytes :: r.2)
        | none => none) = some (cs2, outs) := h
      rcases hrr : runCReads csx ds with _ | ⟨cs2x, outsx⟩
      · rw [hrr] at h2
        cases h2
      · rw [hrr] at h2
        dsimp only at h2
        cases h2
        obtain ⟨ihg, ihtake, ihdrop⟩ := ih csx outsx r4 hrr
        have hmle : m ≤ cs.abs.length := by
          rcases Nat.le_total m cs.abs.length with hm | hm
          · exact hm
          · have := congrArg List.length r1
            rw [List.length_take] at this
            omega
        have hLrle : outsx.flatten.length ≤ cs.abs.length - m := by
          have := congrArg List.length ihtake
          rw [List.length_take, r3, List.length_drop] at this
          omega
        have hflat : (bytes :: outsx).flatten
            = cs.abs.take (m + outsx.flatten.length) := by
          rw [List.flatten_cons, ihtake, r3, r1, List.take_add]
          congr 2
          rw [List.length_take, List.length_drop]
          omega
        have hflatlen : (bytes :: outsx).flatten.length
            = m + outsx.flatten.length := by
          rw [hflat, List.length_take]
          omega
        refine ⟨ihg, ?_, ?_⟩
        · rw [hflatlen, hflat]
        · rw [hflatlen, ihdrop, r3, List.drop_drop]

/-! ## `src/internal/sync.rs` -/

/-- The observable state of a `Signal`: the sticky `notified` flag and the
`waiting` counter.  The mutex and condition variable carry no data. -/
structure Signal where
  notified : Bool
  waiting : Nat
  deriving Repr, DecidableEq

/-- A fresh `Signal`. -/
def Signal.new : Signal := { notified := false, waiting := 0 }

/-- `Signal::notify`: set the sticky flag (waking a waiter moves no
modelled data). -/
def Signal.notify (s : Signal) : Signal := { s with notified := true }

/-- `Signal::wait`, sequential fragment: the fast path consumes a pending
notification (`swap(false)`) and returns at once; with no notification
pending the call parks the thread on the condition variable — `none`, an
outcome a sequential model does not resolve. -/
def Signal.wait (s : Signal) : Option Signal :=
  if s.notified then some { s with notified := false }
  else none

/-- `n` iterated `notify` calls. -/
def notifyN : Nat → Signal → Signal
  | 0, s => s
  | n + 1, s => (notifyN n s).notify

/-! ## `src/io.rs` -/

/-- Combined state of a blocking pipe: the shared ring buffer, the two
ends' `flags` bytes (only the `FLAG_NONBLOCKING` bit is meaningful), the
two `Signal`s and the shared `drop_flag`. -/
structure PState where
  ring : RingState
  readerNonblocking : Bool
  writerNonblocking : Bool
  emptySignal : Signal
  fullSignal : Signal
  dropFlag : Bool
  deriving Repr, DecidableEq

/-- Result alternatives of one blocking-pipe call: `none` when the call
parks the thread with no pending notification (a sequential model stops
there), otherwise the `io::Result` and the post state. -/
abbrev IOOutcome := Option (IORes × List Nat × PState)

/-- `PipeBuilder::build` with `capacity` already rounded to `2 ^ k`:
cursors at zero over arbitrary uninitialized contents `arr0`, fresh
signals, cleared drop flag, and the non-blocking flag copied to both
ends. -/
def PState.build (arr0 : List Nat) (nonblocking : Bool) : PState :=
  { ring := RingState.init arr0,
    readerNonblocking := nonblocking, writerNonblocking := nonblocking,
    emptySignal := Signal.new, fullSignal := Signal.new,
    dropFlag := false }

/-- `io::Read::read` for `PipeReader` (destination represented by its
length; the returned list is the bytes written into its front): empty
destination short-circuits; then pull, and on zero check the drop flag,
then the non-blocking flag, else wait on the "data available" signal and
pull once more, returning that count whatever it is. -/
def PState.read (p : PState) (destLen : Nat) : IOOutcome :=
  if destLen = 0 then some (.ok 0, [], p)
  else
    let r := p.ring.pull destLen
    if r.1.length > 0 then
      some (.ok r.1.length, r.1,
        { p with ring := r.2, fullSignal := p.fullSignal.notify })
    else if p.dropFlag then some (.ok 0, [], { p with ring := r.2 })
    else if p.readerNonblocking then
      some (.error .wouldBlock, [], { p with ring := r.2 })
    else
      match p.emptySignal.wait with
      | none => none
      | some es =>
        let r2 := r.2.pull destLen
        some (.ok r2.1.length, r2.1,
          { p with ring := r2.2, emptySignal := es })

/-- `io::Write::write` for `PipeWriter`: empty source short-circuits; a
set drop flag is broken-pipe before any push; then push, and on zero
check the non-blocking flag, else wait on the "space available" signal
and push once more, returning that count. -/
def PState.write (p : PState) (buf : List Nat) : IOOutcome :=
  if buf = [] then some (.ok 0, [], p)
  else if p.dropFlag then some (.error .brokenPipe, [], p)
  else
    let r := p.ring.push buf
    if r.1 > 0 then
      some (.ok r.1, [],
        { p with ring := r.2, emptySignal := p.emptySignal.notify })
    else if p.writerNonblocking then
      some (.error .wouldBlock, [], { p with ring := r.2 })
    else
      match p.fullSignal.wait with
      | none => none
      | some fs =>
        let r2 := r.2.push buf
        some (.ok r2.1, [], { p with ring := r2.2, fullSignal := fs })

/-- `Drop for PipeReader`: set the shared drop flag, then notify the
"space available" signal (`full_signal`). -/
def dropReader (p : PState) : PState :=
  { p with dropFlag := true, fullSignal := p.fullSignal.notify }

/-- `Drop for PipeWriter`: set the shared drop flag, then notify the
"data available" signal (`empty_signal`). -/
def dropWriter (p : PState) : PState :=
  { p with dropFlag := true, emptySignal := p.emptySignal.notify }

/-! ## Auxiliary facts for the claim theorems -/

theorem notifyN_waiting (n : Nat) (s : Signal) :
    (notifyN n s).waiting = s.waiting := by
  induction n with
  | zero => rfl
  | succ n ih => simp [notifyN, Signal.notify, ih]

theorem ringInit_abs (arr0 : List Nat) : (RingState.init arr0).abs = [] := by
  rw [RingState.abs, RingState.init]
  show window arr0 0 (wrappingSub 0 0) = []
  rw [wrappingSub_self 0 usizeMod_pos, window_zero]

/-! ## The claims -/

/-- C1: Round-trip order preservation: for every sequence of successful
writes totaling N bytes followed by reads totaling N bytes on one pipe,
the concatenation of the bytes read equals the concatenation of the bytes
written, in order; for the blocking pipe this is its ring-buffer data path
(`push` then `pull`), and it holds likewise for the chunked pipe. -/
theorem c1_round_trip :
    (∀ (k : Nat) (arr0 : List Nat) (srcs : List (List Nat)) (ds : List Nat),
      k < 64 → arr0.length = 2 ^ k →
      (runPulls (runPushes (RingState.init arr0) srcs).1 ds).2.flatten.length
        = (runPushes (RingState.init arr0) srcs).2.flatten.length →
      (runPulls (runPushes (RingState.init arr0) srcs).1 ds).2.flatten
        = (runPushes (RingState.init arr0) srcs).2.flatten) ∧
    (∀ (count : Nat) (bufs : List (List Nat)) (ds : List Nat)
      (cs1 cs2 : CState) (outs : List (List Nat)),
      runCWrites (CState.init count) bufs = some cs1 →
      runCReads cs1 ds = some (cs2, outs) →
      outs.flatten.length = bufs.flatten.length →
      outs.flatten = bufs.flatten) := by
  constructor
  · intro k arr0 srcs ds hk hlen hN
    obtain ⟨hg1, habs1⟩ := runPushes_spec k srcs (RingState.init arr0) hk
      (good_init k arr0 hlen)
    rw [ringInit_abs, List.nil_append] at habs1
    obtain ⟨hg2, htake, hdrop⟩ := runPulls_spec k ds
      (runPushes (RingState.init arr0) srcs).1 hk hg1
    rw [htake, habs1, hN, List.take_length]
  · intro count bufs ds cs1 cs2 outs h1 h2 hN
    obtain ⟨hg1, habs1⟩ := runCWrites_spec bufs (CState.init count) cs1
      (cgood_init count) h1
    rw [cstate_init_abs, List.nil_append] at habs1
    obtain ⟨hg2, htake, hdrop⟩ := runCReads_spec ds cs1 cs2 outs hg1 h2
    rw [htake, habs1, hN, List.take_length]

/-- Witness for C1 at concrete inputs: a capacity-4 ring buffer receiving
[1,2,3] then [4] and drained by pulls of sizes 2 and 2 reproduces
[1,2,3,4]; a 1-chunk pipe round-trips [1,2]. -/
theorem c1_round_trip_witness :
    (runPulls (runPushes (RingState.init [0, 0, 0, 0]) [[1, 2, 3], [4]]).1
        [2, 2]).2.flatten = [1, 2, 3, 4] ∧
    (runCWrites (CState.init 1) [[1, 2]]).bind
        (fun cs1 => (runCReads cs1 [5]).map (fun r => r.2.flatten))
      = some [1, 2] := by
  constructor
  · have h := c1_round_trip.1 2 [0, 0, 0, 0] [[1, 2, 3], [4]] [2, 2]
      (by norm_num) (by decide) (by decide)
    rw [h]
    decide
  · have e1 : runCWrites (CState.init 1) [[1, 2]]
        = some ⟨[], [⟨0, [1, 2]⟩], none, false, false⟩ := by decide
    have e2 : runCReads (⟨[], [⟨0, [1, 2]⟩], none, false, false⟩ : CState) [5]
        = some (⟨[⟨0, []⟩], [], none, false, false⟩, [[1, 2]]) := by decide
    have h := c1_round_trip.2 1 [[1, 2]] [5] _ _ _ e1 e2 (by decide)
    rw [e1]
    show (runCReads (⟨[], [⟨0, [1, 2]⟩], none, false, false⟩ : CState) [5]).map
      (fun r => r.2.flatten) = some [1, 2]
    rw [e2]
    exact congrArg some (h.trans (by decide))

/-- C2: Capacity bound: in every reachable ring-buffer state the live
count `tail.wrapping_sub(head)` is at most the capacity, and `push` on a
full buffer writes nothing and returns 0. -/
theorem c2_capacity_bound (k : Nat) (S : RingState) (hk : k < 64)
    (hS : Reach k S) :
    S.len ≤ S.capacity ∧
      ∀ src, S.len = S.capacity → S.push src = (0, S) := by
  have hg := reach_good k S hk hS
  refine ⟨hg.2.2.2, ?_⟩
  intro src hfull
  unfold RingState.push
  rw [if_pos (show wrappingSub S.tail S.head = S.capacity from hfull)]

/-- Witness for C2: a capacity-4 buffer filled by one push of 4 bytes is
within bound, and a further push writes nothing and returns 0. -/
theorem c2_capacity_bound_witness :
    ((RingState.init [0, 0, 0, 0]).push [1, 2, 3, 4]).2.len
        ≤ ((RingState.init [0, 0, 0, 0]).push [1, 2, 3, 4]).2.capacity ∧
      ((RingState.init [0, 0, 0, 0]).push [1, 2, 3, 4]).2.push [9]
        = (0, ((RingState.init [0, 0, 0, 0]).push [1, 2, 3, 4]).2) := by
  have h := c2_capacity_bound 2 ((RingState.init [0, 0, 0, 0]).push
      [1, 2, 3, 4]).2 (by norm_num)
    (Reach.push _ _ (Reach.init [0, 0, 0, 0] (by decide)))
  exact ⟨h.1, h.2 [9] (by decide)⟩

/-- C3: Blocking-pipe close semantics: a non-empty write after the reader
end dropped returns broken-pipe with the state untouched (no push
attempted), and a read of a non-empty destination on an empty pipe after
the writer end dropped returns `Ok(0)` — success, not an error. -/
theorem c3_close_semantics (p : PState) (buf : List Nat) (destLen : Nat)
    (hbuf : buf ≠ []) (hempty : p.ring.head = p.ring.tail)
    (hd : 0 < destLen) :
    (dropReader p).write buf
        = some (.error .brokenPipe, [], dropReader p) ∧
      ∃ p', (dropWriter p).read destLen = some (.ok 0, [], p') := by
  constructor
  · unfold PState.write
    rw [if_neg hbuf]
    rw [if_pos (show (dropReader p).dropFlag = true from rfl)]
  · have hpull : ((dropWriter p).ring.pull destLen).1 = [] := by
      show (p.ring.pull destLen).1 = []
      show p.ring.copy_to destLen = []
      rw [RingState.copy_to, if_pos hempty]
    refine ⟨{ dropWriter p with
      ring := ((dropWriter p).ring.pull destLen).2 }, ?_⟩
    unfold PState.read
    dsimp only
    rw [if_neg (by omega), hpull]
    rw [if_neg (by decide)]
    rw [if_pos (show (dropWriter p).dropFlag = true from rfl)]

/-- Witness for C3 on a fresh capacity-2 pipe. -/
theorem c3_close_semantics_witness :
    (dropReader (PState.build [0, 0] false)).write [7]
        = some (.error .brokenPipe, [], dropReader (PState.build [0, 0] false)) ∧
      ∃ p', (dropWriter (PState.build [0, 0] false)).read 1
        = some (.ok 0, [], p') :=
  c3_close_semantics (PState.build [0, 0] false) [7] 1
    (by decide) rfl (by decide)

/-- C4 (amended): in blocking mode with the writer still open, when the
first pull yields 0 bytes and the data-available signal has a pending
(possibly stale) notification, `read` waits once — consuming the flag —
and retries the pull exactly once, returning `Ok` of that second count
even when it is 0; it does not loop until data arrives, so `Ok(0)` does
not imply the writer closed. -/
theorem c4_blocking_read_single_retry (p : PState) (destLen : Nat)
    (hd : 0 < destLen)
    (hpull : (p.ring.pull destLen).1 = [])
    (hopen : p.dropFlag = false)
    (hblocking : p.readerNonblocking = false)
    (hsig : p.emptySignal.notified = true) :
    p.read destLen
      = some (.ok ((p.ring.pull destLen).2.pull destLen).1.length,
          ((p.ring.pull destLen).2.pull destLen).1,
          { p with
            ring := ((p.ring.pull destLen).2.pull destLen).2,
            emptySignal :=
              { notified := false, waiting := p.emptySignal.waiting } }) := by
  unfold PState.read
  dsimp only
  rw [if_neg (by omega), hpull]
  rw [if_neg (by decide)]
  rw [if_neg (by rw [hopen]; exact Bool.false_ne_true)]
  rw [if_neg (by rw [hblocking]; exact Bool.false_ne_true)]
  rw [Signal.wait, if_pos hsig]

/-- Witness for C4 (amended): the pipe state reached by writing one byte
and reading it back — the data-available flag is still set — where a
blocking read of a 1-byte destination returns `Ok(0)` with the writer
attached. -/
theorem c4_blocking_read_single_retry_witness :
    PState.read
        { ring := { arr := [7, 0, 0, 0], head := 1, tail := 1 },
          readerNonblocking := false, writerNonblocking := false,
          emptySignal := { notified := true, waiting := 0 },
          fullSignal := { notified := true, waiting := 0 },
          dropFlag := false } 1
      = some (.ok 0, [],
          { ring := { arr := [7, 0, 0, 0], head := 1, tail := 1 },
            readerNonblocking := false, writerNonblocking := false,
            emptySignal := { notified := false, waiting := 0 },
            fullSignal := { notified := true, waiting := 0 },
            dropFlag := false }) := by
  have h := c4_blocking_read_single_retry
    { ring := { arr := [7, 0, 0, 0], head := 1, tail := 1 },
      readerNonblocking := false, writerNonblocking := false,
      emptySignal := { notified := true, waiting := 0 },
      fullSignal := { notified := true, waiting := 0 },
      dropFlag := false } 1 (by decide) (by decide) rfl rfl rfl
  rw [h]
  decide

/-- C4 counterexample: starting from a fresh blocking pipe, after a
successful one-byte write and a successful one-byte read, a second
blocking read returns `Ready(Ok 0)` while the shared drop flag is still
`false` — the writer has not closed, refuting "read returns `Ok(0)` only
when the writer end has closed". -/
theorem c4_counterexample :
    ((PState.build [0, 0, 0, 0] false).write [7]).bind
        (fun r1 => (PState.read r1.2.2 1).bind
          (fun r2 => (PState.read r2.2.2 1).map
            (fun r3 => (r1.1, r2.1, r3.1, r3.2.2.dropFlag))))
      = some (.ok 1, .ok 1, .ok 0, false) := by
  decide

/-- C5 (amended): dropping an end of the blocking pipe sets the shared
closed flag and then notifies exactly one signal — the one its peer waits
on: the reader's drop notifies "space available" (`full_signal`), the
writer's drop notifies "data available" (`empty_signal`); the other
signal of the pair is left untouched. -/
theorem c5_drop_handshake (p : PState) :
    (dropReader p).dropFlag = true ∧
      (dropReader p).fullSignal = p.fullSignal.notify ∧
      (dropReader p).emptySignal = p.emptySignal ∧
      (dropWriter p).dropFlag = true ∧
      (dropWriter p).emptySignal = p.emptySignal.notify ∧
      (dropWriter p).fullSignal = p.fullSignal :=
  ⟨rfl, rfl, rfl, rfl, rfl, rfl⟩

/-- C5 counterexample: dropping the reader of a fresh pipe leaves the
data-available signal un-notified (and dropping the writer leaves the
space-available signal un-notified), refuting "notifies both signals". -/
theorem c5_counterexample :
    (dropReader (PState.build [0, 0] false)).emptySignal.notified = false ∧
      (dropReader (PState.build [0, 0] false)).dropFlag = true ∧
      (dropWriter (PState.build [0, 0] false)).fullSignal.notified = false ∧
      (dropWriter (PState.build [0, 0] false)).dropFlag = true := by
  decide

/-- C6: Chunked whole-buffer atomicity: when `poll_write` completes
successfully it has appended the entire input into the single chunk taken
from the pool (which the pool invariant keeps empty), handed that chunk
to the stream channel as one unit, and returned exactly the full input
length. -/
theorem c6_chunked_write_atomic (cs : CState) (buf : List Nat) (n : Nat)
    (cs' : CState) (hpool : ∀ c ∈ cs.pool, c = ⟨0, []⟩)
    (h : poll_write cs buf = (.ready (.ok n), cs')) :
    n = buf.length ∧ cs'.stream = cs.stream ++ [⟨0, buf⟩] ∧
      cs'.pool = cs.pool.tail := by
  obtain ⟨h1, h2, h3, _, _, _⟩ := poll_write_ok cs buf n cs' hpool h
  exact ⟨h1, h2, h3⟩

/-- Witness for C6: writing [5, 6] on a fresh 4-chunk pipe delivers one
chunk holding exactly [5, 6] and reports 2. -/
theorem c6_chunked_write_atomic_witness :
    (2 : Nat) = ([5, 6] : List Nat).length ∧
      (poll_write (CState.init 4) [5, 6]).2.stream
          = (CState.init 4).stream ++ [⟨0, [5, 6]⟩] ∧
      (poll_write (CState.init 4) [5, 6]).2.pool = (CState.init 4).pool.tail := by
  have e : poll_write (CState.init 4) [5, 6]
      = (.ready (.ok 2),
        ⟨[⟨0, []⟩, ⟨0, []⟩, ⟨0, []⟩], [⟨0, [5, 6]⟩], none, false, false⟩) := by
    decide
  have h := c6_chunked_write_atomic (CState.init 4) [5, 6] 2 _ (by decide) e
  exact ⟨h.1, by rw [e]; exact h.2.1, by rw [e]; exact h.2.2⟩

/-- C7 (amended): `Reader::consume` and the reader's `clear` leave `tail`
unchanged and `Writer::push` leaves `head` unchanged; but `clear` is also
available on the `Writer` handle, and it stores `tail` into `head` — so
the head cursor is stored from the writer side by `Writer::clear`. -/
theorem c7_cursor_ownership (S : RingState) (n : Nat) (src : List Nat) :
    (S.consume n).2.tail = S.tail ∧
      S.readerClear.tail = S.tail ∧
      (S.push src).2.head = S.head ∧
      S.writerClear.head = S.tail := by
  refine ⟨rfl, rfl, ?_, rfl⟩
  unfold RingState.push
  by_cases h : wrappingSub S.tail S.head = S.capacity
  · rw [if_pos h]
  · rw [if_neg h]

/-- C7 counterexample: `clear` invoked through the `Writer` handle of a
buffer with head 0 and tail 1 stores to the head cursor, refuting "the
head is never stored to from the writer side". -/
theorem c7_counterexample :
    (RingState.writerClear ⟨[0, 0], 0, 1⟩).head
      ≠ (⟨[0, 0], 0, 1⟩ : RingState).head := by
  decide

/-- C8: Signal stickiness and coalescing: after any positive number of
`notify` calls, one `wait` returns without blocking and clears the flag
(a notify before a wait is never lost, and repeated notifies coalesce
into that single consumption); the `wait` after it finds the flag clear
and blocks. -/
theorem c8_signal_sticky_coalescing (s : Signal) (n : Nat) :
    (notifyN (n + 1) s).wait
        = some { notified := false, waiting := s.waiting } ∧
      Signal.wait { notified := false, waiting := s.waiting } = none := by
  constructor
  · show Signal.wait ((notifyN n s).notify) = _
    rw [Signal.wait]
    rw [if_pos (show (notifyN n s).notify.notified = true from rfl)]
    rw [Signal.notify]
    simp [notifyN_waiting]
  · rw [Signal.wait]
    rw [if_neg (by simp)]

/-- C9 (amended): for a power-of-two circular array and a non-empty
virtual range covering at most the array length, the two `as_slices`
slices concatenate to exactly the window elements — total length equal
to the range length, tail segment first on wrap; the non-emptiness is
necessary, because an empty range returns the whole array instead. -/
theorem c9_as_slices_decomposition (k : Nat) (arr : List Nat)
    (start len : Nat) (hlen : arr.length = 2 ^ k) (h0 : 0 < len)
    (hcap : len ≤ 2 ^ k) :
    (as_slices arr start (start + len)).flatten = window arr start len ∧
      (as_slices arr start (start + len)).flatten.length = len := by
  have h := flatten_as_slices k arr start (start + len) len hlen h0 hcap rfl
  exact ⟨h, by rw [h, window_length]⟩

/-- Witness for C9: the wrapped range `[1, 3)` over the 2-element array
[5, 6] yields tail segment [6] then head segment [5]. -/
theorem c9_as_slices_decomposition_witness :
    (as_slices [5, 6] 1 3).flatten = window [5, 6] 1 2 ∧
      (as_slices [5, 6] 1 3).flatten.length = 2 :=
  c9_as_slices_decomposition 1 [5, 6] 1 2 (by decide) (by decide) (by decide)

/-- C9 counterexample: an empty virtual range (`start = end`) does not
yield zero total length — `as_slices` then returns the whole array. -/
theorem c9_counterexample :
    (as_slices [5, 6] 0 0).flatten.length ≠ 0 := by
  decide

/-- C10: an empty chunked write on a pipe whose stream is empty succeeds
with `Ready(Ok 0)`, consumes a pool chunk and sends an empty chunk; the
reader's next read then returns `Ready(Ok 0)` with no bytes — the
end-of-stream result — although the writer is still attached. -/
theorem c10_empty_write_spurious_eof (rest : List Chunk) (destLen : Nat)
    (hd : 0 < destLen) :
    poll_write ⟨⟨0, []⟩ :: rest, [], none, false, false⟩ [] =
        (.ready (.ok 0), ⟨rest, [⟨0, []⟩], none, false, false⟩) ∧
      (poll_read (⟨rest, [⟨0, []⟩], none, false, false⟩ : CState) destLen).1
          = .ready (.ok 0) ∧
      (poll_read (⟨rest, [⟨0, []⟩], none, false, false⟩ : CState) destLen).2.1
          = [] ∧
      ((⟨rest, [⟨0, []⟩], none, false, false⟩ : CState)).writerDropped
          = false := by
  refine ⟨?_, ?_, ?_, rfl⟩
  · rw [poll_write]
    simp
  · rw [poll_read]
    dsimp only
    rw [poll_read_from]
    simp
  · rw [poll_read]
    dsimp only
    rw [poll_read_from]
    simp

/-- Witness for C10 on a fresh 4-chunk pipe read with a 1-byte buffer. -/
theorem c10_empty_write_spurious_eof_witness :
    poll_write (CState.init 4) [] =
        (.ready (.ok 0),
          ⟨[⟨0, []⟩, ⟨0, []⟩, ⟨0, []⟩], [⟨0, []⟩], none, false, false⟩) ∧
      (poll_read
          (⟨[⟨0, []⟩, ⟨0, []⟩, ⟨0, []⟩], [⟨0, []⟩], none, false, false⟩
            : CState) 1).1 = .ready (.ok 0) := by
  have h := c10_empty_write_spurious_eof [⟨0, []⟩, ⟨0, []⟩, ⟨0, []⟩] 1
    (by decide)
  exact ⟨h.1, h.2.1⟩

end Sluice
